import Mathlib

/- Shallow embedding of the `sparselearn` core (files `src/sparselearn/projections.py`
and `src/sparselearn/regularisers.py`).  Vectors are lists of real numbers; numpy's
elementwise operations become `List.map` / `List.zipWith`, `np.linalg.norm` is the
square root of the explicit sum of squares, and the iterative simplex projection is a
well-founded recursion on the length of the working set. -/

noncomputable section

open Classical in
/-- Classical decidability is used only to express Python `if` tests on
propositions such as feasibility checks. -/
instance (priority := low) propDecidableForIf (p : Prop) : Decidable p :=
  Classical.propDecidable p

/-! ## Projections (`projections.py`) -/

/-- Python `NonNegativityProjection.project` (line 27): `ne.evaluate("x*(x >= 0)")`. -/
def nonNegProject (x : List ℝ) : List ℝ :=
  x.map (fun a => a * (if 0 ≤ a then 1 else 0))

/-- Python `NonNegativityProjection.is_feasible` (line 30): `np.all(x >= 0)`. -/
def nonNeg_isFeasible (x : List ℝ) : Prop := ∀ a ∈ x, 0 ≤ a

/-- Python `rho = np.mean(v) - self.simplex_size/len(v)` (line 48): the threshold
computed from the current working set.  Real division totalizes `x / 0` to `0`
here, whereas Python raises `ZeroDivisionError` when `len(v) == 0`; the
error-aware `simplexRhoE` below models that raise, and the working set is in fact
nonempty throughout every run on a nonempty input with positive size
(`simplexStep_ne_nil`), where the two readings agree (`simplexRhoE_ok`). -/
def stepRho (s : ℝ) (v : List ℝ) : ℝ :=
  v.sum / (v.length : ℝ) - s / (v.length : ℝ)

/-- Python `v = v[v > rho]` (line 49): one shrink of the working set, the body of
the `while` loop of `SimplexProjection.project`. -/
def simplexStep (s : ℝ) (v : List ℝ) : List ℝ :=
  v.filter (fun a => decide (stepRho s v < a))

/-- The threshold produced by the support-reduction loop of
`SimplexProjection.project` (lines 46-52): iterate `simplexStep` until the working
set stops shrinking, then return the final `rho`. -/
def simplexRho (s : ℝ) (v : List ℝ) : ℝ :=
  if h : (simplexStep s v).length = v.length then stepRho s v
  else simplexRho s (simplexStep s v)
termination_by v.length
decreasing_by
  exact lt_of_le_of_ne (List.length_filter_le _ _) h

/-- The number of executions of the `while` body of `SimplexProjection.project`
before it returns. -/
def simplexSteps (s : ℝ) (v : List ℝ) : ℕ :=
  if h : (simplexStep s v).length = v.length then 1
  else 1 + simplexSteps s (simplexStep s v)
termination_by v.length
decreasing_by
  exact lt_of_le_of_ne (List.length_filter_le _ _) h

/-- Python `SimplexProjection.project` (lines 41-52): clip to the nonnegative
orthant, run the support-reduction loop on the clipped vector, and return
`np.maximum(y - rho, 0)` for the final `rho`. -/
def simplexProject (s : ℝ) (x : List ℝ) : List ℝ :=
  let y := nonNegProject x
  y.map (fun t => max (t - simplexRho s y) 0)

/-- Python `SimplexProjection.is_feasible` (line 55):
`abs(x.sum() - self.simplex_size) < 1e-10 and np.all(x >= 0)`. -/
def simplex_isFeasible (s : ℝ) (x : List ℝ) : Prop :=
  |x.sum - s| < 1e-10 ∧ ∀ a ∈ x, 0 ≤ a

/-- The error Python raises when `self.simplex_size/len(v)` divides by a zero
length. -/
inductive PyError where
  | zeroDivisionError : PyError

/-- Error-aware reading of the support-reduction loop: each pass evaluates
`np.mean(v) - self.simplex_size/len(v)` (lines 44 and 48), which raises
`ZeroDivisionError` when the current working set `v` is empty; otherwise the pass
proceeds exactly as in `simplexRho`. -/
def simplexRhoE (s : ℝ) (v : List ℝ) : Except PyError ℝ :=
  if v.length = 0 then .error .zeroDivisionError
  else if h : (simplexStep s v).length = v.length then .ok (stepRho s v)
  else simplexRhoE s (simplexStep s v)
termination_by v.length
decreasing_by
  exact lt_of_le_of_ne (List.length_filter_le _ _) h

/-- Error-aware reading of `SimplexProjection.project`: clip, run the loop (which
raises `ZeroDivisionError` on an empty working set — in particular immediately,
at line 44's `self.simplex_size/len(v)`, when the input vector is empty), and on
success return `np.maximum(y - rho, 0)`. -/
def simplexProjectE (s : ℝ) (x : List ℝ) : Except PyError (List ℝ) :=
  (simplexRhoE s (nonNegProject x)).map
    (fun rho => (nonNegProject x).map (fun t => max (t - rho) 0))

/-- Python `np.linalg.norm(x, 1)`: the sum of absolute values. -/
def l1norm (x : List ℝ) : ℝ := (x.map (fun a => |a|)).sum

/-- Python `L1Projection.is_feasible` (line 77):
`np.linalg.norm(x, 1) < self.max_norm + 1e-10`. -/
def l1_isFeasible (a : ℝ) (x : List ℝ) : Prop := l1norm x < a + 1e-10

/-- Python `L1Projection.project` (lines 71-74): return `x` when already feasible,
otherwise `np.sign(x) * self.simplex_projection(np.abs(x))` where the inner simplex
projection was constructed with size `max_norm`. -/
def l1Project (a : ℝ) (x : List ℝ) : List ℝ :=
  if l1_isFeasible a x then x
  else List.zipWith (· * ·) (x.map Real.sign) (simplexProject a (x.map (fun t => |t|)))

/-- Python `np.linalg.norm(x)`: the Euclidean norm. -/
def l2norm (x : List ℝ) : ℝ := Real.sqrt ((x.map (fun a => a ^ 2)).sum)

/-- Python `L2Projection.project` (lines 84-89): return `x` when
`np.linalg.norm(x) < self.max_norm`, else `(self.max_norm / (xnorm + 1e-16)) * x`. -/
def l2Project (a : ℝ) (x : List ℝ) : List ℝ :=
  if l2norm x < a then x
  else x.map (fun t => a / (l2norm x + 1e-16) * t)

/-- Python `L2Projection.is_feasible` (line 92):
`np.linalg.norm(x) < self.max_norm + 1e-10`. -/
def l2_isFeasible (a : ℝ) (x : List ℝ) : Prop := l2norm x < a + 1e-10

/-- Python `np.linalg.norm(x, np.inf)` on a nonempty vector: the maximum absolute
value (`0` is used as the fold base; for nonempty input this equals numpy's value
because absolute values are nonnegative). -/
def linfnorm (x : List ℝ) : ℝ := (x.map (fun a => |a|)).foldr max 0

/-- Python `LInfProjection.project` (line 100):
`np.sign(x) * np.minimum(np.abs(x), self.max_norm)`. -/
def linfProject (a : ℝ) (x : List ℝ) : List ℝ :=
  x.map (fun t => Real.sign t * min |t| a)

/-- Python `LInfProjection.is_feasible` (line 103):
`np.linalg.norm(x, np.inf) < self.max_norm + 1e-10`. -/
def linf_isFeasible (a : ℝ) (x : List ℝ) : Prop := linfnorm x < a + 1e-10

/-- The five projection variants of `projections.py` as a tagged union. -/
inductive ProjectionSet where
  | nonNegativeOrthant : ProjectionSet
  | simplex (size : ℝ) : ProjectionSet
  | l1Ball (radius : ℝ) : ProjectionSet
  | l2Ball (radius : ℝ) : ProjectionSet
  | linfBall (radius : ℝ) : ProjectionSet

/-- Dispatch of `project` to each variant's implementation. -/
def ProjectionSet.project : ProjectionSet → List ℝ → List ℝ
  | .nonNegativeOrthant, x => nonNegProject x
  | .simplex s, x => simplexProject s x
  | .l1Ball a, x => l1Project a x
  | .l2Ball a, x => l2Project a x
  | .linfBall a, x => linfProject a x

/-- Dispatch of `is_feasible` to each variant's implementation. -/
def ProjectionSet.is_feasible : ProjectionSet → List ℝ → Prop
  | .nonNegativeOrthant, x => nonNeg_isFeasible x
  | .simplex s, x => simplex_isFeasible s x
  | .l1Ball a, x => l1_isFeasible a x
  | .l2Ball a, x => l2_isFeasible a x
  | .linfBall a, x => linf_isFeasible a x

/-- The parameter of a variant is valid when it is strictly positive (the orthant
has no parameter). -/
def ProjectionSet.validParam : ProjectionSet → Prop
  | .nonNegativeOrthant => True
  | .simplex s => 0 < s
  | .l1Ball a => 0 < a
  | .l2Ball a => 0 < a
  | .linfBall a => 0 < a

/-! ## Regularisers (`regularisers.py`) -/

/-- Python `BaseSparseRegulariser.prox_loss` (line 42):
`self.__call__(x) + 0.5*np.linalg.norm(x - y)`, with the penalty `self.__call__`
abstracted as a parameter.  Note that the source does NOT square the norm, although
its own docstring (line 40) reads `R(x) + 0.5||x - y||^2`. -/
def prox_loss (penalty : List ℝ → ℝ) (x y : List ℝ) : ℝ :=
  penalty x + 0.5 * l2norm (List.zipWith (· - ·) x y)

/-- Python `L1Regularisation.subgradient` (line 82): `np.sign(x)` (note `np.sign`
returns `0` at `0`, matching `Real.sign`). -/
def l1_subgradient (x : List ℝ) : List ℝ := x.map Real.sign

/-- Python `L1Regularisation.prox` (line 92) with a scalar coefficient, reading the
evident `np.sign` for the erroneous `self.sign` (the class defines no `sign`
attribute, so the line as written raises `AttributeError`):
`np.sign(x)*np.maximum(np.abs(x) - self.reg, 0)`. -/
def l1_prox (reg : ℝ) (x : List ℝ) : List ℝ :=
  x.map (fun t => Real.sign t * max (|t| - reg) 0)

/-- Python `L1Regularisation.prox` (line 92) with an elementwise weight vector as
coefficient (`np.abs(x) - self.reg` broadcasts elementwise), same reading of
`self.sign` as in `l1_prox`. -/
def l1_prox_w (reg : List ℝ) (x : List ℝ) : List ℝ :=
  List.zipWith (fun t r => Real.sign t * max (|t| - r) 0) x reg

/-- The members of group `g` of `x`: `x[self.groups == group]`
(`regularisers.py` lines 149-150), with groups given as a per-index label list. -/
def groupMembers (groups : List ℕ) (x : List ℝ) (g : ℕ) : List ℝ :=
  ((groups.zip x).filter (fun p => p.1 == g)).map Prod.snd

/-- The effective coefficient of group `g` for a scalar `reg`
(`regularisers.py` line 152), reading `np.sqrt` for the unimported name `sqrt`
(the line as written raises `NameError`): `sqrt(idxes.sum())*self.reg`. -/
def groupReg (reg : ℝ) (groups : List ℕ) (g : ℕ) : ℝ :=
  Real.sqrt ((groups.filter (fun a => a == g)).length : ℝ) * reg

/-- Python `GroupLassoRegularisation.prox` (lines 186-201) for a scalar coefficient
and explicit group labels, with the slips repaired (`np.empty_like(subgradient)`
read as an output buffer of the shape of `x`, and the missing `return y` added):
each index receives `0` when its group's norm is below the group coefficient, and
`x_i - (reg_g/||x_g||)*x_i` otherwise.  Computing each index from its own group is
equivalent to the source's scatter `y[idxes] = ...` because the labels partition
the index range. -/
def groupLasso_prox (reg : ℝ) (groups : List ℕ) (x : List ℝ) : List ℝ :=
  (groups.zip x).map (fun p =>
    if l2norm (groupMembers groups x p.1) < groupReg reg groups p.1 then 0
    else p.2 - groupReg reg groups p.1 / l2norm (groupMembers groups x p.1) * p.2)

/-- The possible values of the attribute `self.groups` after
`GroupLassoRegularisation.__init__` runs `self.groups = np.asarray(groups)`
(line 127): `np.asarray` of a label list is an ndarray, and `np.asarray(None)` is a
0-d object array — in neither case the Python object `None`. -/
inductive StoredGroups where
  | arr (labels : List ℕ) : StoredGroups
  | objNoneArray : StoredGroups

/-- Python `np.asarray(groups)` as executed by `GroupLassoRegularisation.__init__`
on the `groups` argument (`None` or a label list). -/
def asarrayGroups : Option (List ℕ) → StoredGroups
  | some labels => .arr labels
  | none => .objNoneArray

/-- The branch test `self.groups is None` at the top of `iter_groups` (line 139),
applied to the stored attribute: an ndarray is never the object `None`, whichever
argument was given. -/
def groupsIsNone : StoredGroups → Bool
  | .arr _ => false
  | .objNoneArray => false

/-! ## Constructors (`__init__` methods) -/

/-- State stored by `SimplexProjection.__init__` (lines 37-39). -/
structure SimplexProjectionState where
  simplex_size : ℝ

/-- State stored by `BallProjection.__init__` (lines 58-60). -/
structure BallProjectionState where
  max_norm : ℝ

/-- State stored by `L1Regularisation.__init__` (line 62). -/
structure L1RegularisationState where
  reg : ℝ

/-- State stored by `GroupLassoRegularisation.__init__` (lines 127-128). -/
structure GroupLassoRegularisationState where
  groups : StoredGroups
  reg : ℝ

/-- The error condition the spec prescribes for non-positive parameters.  The
constructors below are modelled as fallible so that "raises at construction time"
is representable; none of them ever produces the error case, because the Python
`__init__` methods perform no validation at all. -/
inductive ParamError where
  | invalidParameter : ParamError

/-- Python `SimplexProjection.__init__(simplex_size)`: stores the size unchecked. -/
def mkSimplexProjection (s : ℝ) : Except ParamError SimplexProjectionState := .ok ⟨s⟩

/-- Python `BallProjection.__init__(max_norm)`: stores the radius unchecked. -/
def mkBallProjection (a : ℝ) : Except ParamError BallProjectionState := .ok ⟨a⟩

/-- Python `L1Regularisation.__init__(reg)`: stores the coefficient unchecked. -/
def mkL1Regularisation (r : ℝ) : Except ParamError L1RegularisationState := .ok ⟨r⟩

/-- Python `GroupLassoRegularisation.__init__(reg, groups)`: stores
`np.asarray(groups)` and `reg`, unchecked. -/
def mkGroupLassoRegularisation (r : ℝ) (groups : Option (List ℕ)) :
    Except ParamError GroupLassoRegularisationState := .ok ⟨asarrayGroups groups, r⟩

end

/-! ## Helper lemmas -/

/-- Evaluate a square root at a perfect square. -/
lemma sqrt_eval {r c : ℝ} (h0 : 0 ≤ r) (h : r ^ 2 = c) : Real.sqrt c = r := by
  rw [← h, Real.sqrt_sq h0]

lemma l2norm_pair (a b : ℝ) : l2norm [a, b] = Real.sqrt (a ^ 2 + b ^ 2) := by
  simp [l2norm]

lemma l2norm_single (a : ℝ) : l2norm [a] = |a| := by
  simp [l2norm, Real.sqrt_sq_eq_abs]

/-! ## Support-reduction analysis for the simplex projection -/

lemma sum_split (p : ℝ → Bool) (l : List ℝ) :
    (l.filter p).sum + (l.filter (fun a => !p a)).sum = l.sum := by
  induction l with
  | nil => simp
  | cons a l ih =>
    rw [List.filter_cons, List.filter_cons]
    by_cases h : p a = true
    · rw [if_pos h, if_neg (by simp [h])]
      simp only [List.sum_cons]
      linarith
    · rw [if_neg h, if_pos (by simp [Bool.not_eq_true] at h ⊢; exact h)]
      simp only [List.sum_cons]
      linarith

lemma exists_ge_mean (v : List ℝ) (hv : v ≠ []) : ∃ a ∈ v, v.sum ≤ (v.length : ℝ) * a := by
  induction v with
  | nil => exact absurd rfl hv
  | cons b l ih =>
    rcases eq_or_ne l [] with rfl | hl
    · exact ⟨b, List.mem_cons_self b [], by simp⟩
    · obtain ⟨c, hc, hsum⟩ := ih hl
      have hlen : (0:ℝ) ≤ (l.length : ℝ) := Nat.cast_nonneg _
      rcases le_total b c with hbc | hcb
      · refine ⟨c, List.mem_cons_of_mem _ hc, ?_⟩
        simp only [List.sum_cons, List.length_cons]
        push_cast
        nlinarith
      · refine ⟨b, List.mem_cons_self _ _, ?_⟩
        simp only [List.sum_cons, List.length_cons]
        push_cast
        nlinarith [mul_le_mul_of_nonneg_left hcb hlen]

lemma simplexStep_ne_nil {s : ℝ} (hs : 0 < s) {v : List ℝ} (hv : v ≠ []) :
    simplexStep s v ≠ [] := by
  obtain ⟨a, ha, hsum⟩ := exists_ge_mean v hv
  have hlen : (0:ℝ) < (v.length : ℝ) := by exact_mod_cast List.length_pos.mpr hv
  have hrho : stepRho s v < a := by
    unfold stepRho
    have h1 : v.sum / (v.length : ℝ) ≤ a := by
      rw [div_le_iff hlen, mul_comm]
      exact hsum
    have h2 : 0 < s / (v.length : ℝ) := div_pos hs hlen
    linarith
  intro hnil
  have hmem : a ∈ simplexStep s v := List.mem_filter.mpr ⟨ha, by simpa using hrho⟩
  rw [hnil] at hmem
  exact List.not_mem_nil a hmem

lemma stepRho_le_stepRho_step {s : ℝ} (hs : 0 < s) {v : List ℝ} (hv : v ≠ []) :
    stepRho s v ≤ stepRho s (simplexStep s v) := by
  have hv2 : simplexStep s v ≠ [] := simplexStep_ne_nil hs hv
  have hn : (0:ℝ) < (v.length : ℝ) := by exact_mod_cast List.length_pos.mpr hv
  have hn2 : (0:ℝ) < ((simplexStep s v).length : ℝ) := by
    exact_mod_cast List.length_pos.mpr hv2
  set p : ℝ → Bool := fun a => decide (stepRho s v < a) with hp
  have hsplit : (v.filter p).sum + (v.filter (fun a => !p a)).sum = v.sum := sum_split p v
  have hlsplit : v.length = (v.filter p).length + (v.filter (fun a => !p a)).length :=
    List.length_eq_length_filter_add p
  have hall : ∀ a ∈ v.filter (fun a => !p a), a ≤ stepRho s v := by
    intro a hamem
    have hpa := List.of_mem_filter hamem
    rw [hp] at hpa
    simp only [Bool.not_eq_true', decide_eq_false_iff_not] at hpa
    exact not_lt.mp hpa
  have hrest : (v.filter (fun a => !p a)).sum
      ≤ ((v.filter (fun a => !p a)).length : ℝ) * stepRho s v := by
    have := List.sum_le_card_nsmul (v.filter (fun a => !p a)) (stepRho s v) hall
    rwa [nsmul_eq_mul] at this
  have hstep_eq : simplexStep s v = v.filter p := rfl
  have hrn : stepRho s v * (v.length : ℝ) = v.sum - s := by
    unfold stepRho
    field_simp
  rw [show stepRho s (simplexStep s v)
      = ((simplexStep s v).sum - s) / ((simplexStep s v).length : ℝ) from by
    unfold stepRho; ring]
  rw [le_div_iff hn2]
  have hcast : (v.length : ℝ)
      = ((v.filter p).length : ℝ) + ((v.filter (fun a => !p a)).length : ℝ) := by
    exact_mod_cast hlsplit
  rw [hstep_eq]
  have hexp : stepRho s v * (v.length : ℝ)
      = stepRho s v * ((v.filter p).length : ℝ)
        + stepRho s v * ((v.filter (fun a => !p a)).length : ℝ) := by
    rw [hcast]; ring
  linarith [hexp, hrn, hsplit, hrest]

lemma simplexRho_spec {s : ℝ} (hs : 0 < s) :
    ∀ (n : ℕ) (v : List ℝ), v.length ≤ n → v ≠ [] →
      stepRho s v ≤ simplexRho s v ∧
        (v.filter (fun a => decide (simplexRho s v < a))).sum
          = s + simplexRho s v * ((v.filter (fun a => decide (simplexRho s v < a))).length : ℝ) := by
  intro n
  induction n with
  | zero =>
    intro v hlen hne
    exact absurd (List.length_eq_zero.mp (Nat.le_zero.mp hlen)) hne
  | succ n ih =>
    intro v hlen hne
    have hn : (0:ℝ) < (v.length : ℝ) := by exact_mod_cast List.length_pos.mpr hne
    by_cases h : (simplexStep s v).length = v.length
    · have hrho : simplexRho s v = stepRho s v := by rw [simplexRho, dif_pos h]
      have hfe : simplexStep s v = v := (List.filter_sublist v).eq_of_length h
      have hall : ∀ a ∈ v, stepRho s v < a := by
        intro a ha
        have hmem : a ∈ simplexStep s v := by rw [hfe]; exact ha
        have := List.of_mem_filter hmem
        simpa using this
      have hfilter : v.filter (fun a => decide (simplexRho s v < a)) = v := by
        apply List.filter_eq_self.mpr
        intro a ha
        simpa [hrho] using hall a ha
      refine ⟨le_of_eq hrho.symm, ?_⟩
      rw [hfilter, hrho]
      unfold stepRho
      field_simp
    · have hrho : simplexRho s v = simplexRho s (simplexStep s v) := by
        rw [simplexRho, dif_neg h]
      have hv2 : simplexStep s v ≠ [] := simplexStep_ne_nil hs hne
      have hlt : (simplexStep s v).length < v.length :=
        lt_of_le_of_ne (List.length_filter_le _ _) h
      obtain ⟨ih1, ih2⟩ := ih (simplexStep s v) (by omega) hv2
      have hmono : stepRho s v ≤ simplexRho s v := by
        rw [hrho]
        exact (stepRho_le_stepRho_step hs hne).trans ih1
      refine ⟨hmono, ?_⟩
      have hff : (simplexStep s v).filter (fun a => decide (simplexRho s v < a))
          = v.filter (fun a => decide (simplexRho s v < a)) := by
        unfold simplexStep
        rw [List.filter_filter]
        apply List.filter_congr
        intro a _
        by_cases hc : simplexRho s v < a
        · have hc2 : stepRho s v < a := lt_of_le_of_lt hmono hc
          simp [hc, hc2]
        · simp [hc]
      rw [← hff, hrho]
      exact ih2

lemma simplexSteps_bound {s : ℝ} (hs : 0 < s) :
    ∀ (n : ℕ) (v : List ℝ), v.length ≤ n → v ≠ [] →
      1 ≤ simplexSteps s v ∧ simplexSteps s v ≤ v.length := by
  intro n
  induction n with
  | zero =>
    intro v hlen hne
    exact absurd (List.length_eq_zero.mp (Nat.le_zero.mp hlen)) hne
  | succ n ih =>
    intro v hlen hne
    by_cases h : (simplexStep s v).length = v.length
    · rw [simplexSteps, dif_pos h]
      exact ⟨le_rfl, List.length_pos.mpr hne⟩
    · rw [simplexSteps, dif_neg h]
      have hv2 : simplexStep s v ≠ [] := simplexStep_ne_nil hs hne
      have hlt : (simplexStep s v).length < v.length :=
        lt_of_le_of_ne (List.length_filter_le _ _) h
      obtain ⟨h1, h2⟩ := ih (simplexStep s v) (by omega) hv2
      omega

lemma sum_map_max (y : List ℝ) (r : ℝ) :
    (y.map (fun t => max (t - r) 0)).sum
      = (y.filter (fun a => decide (r < a))).sum
          - r * ((y.filter (fun a => decide (r < a))).length : ℝ) := by
  induction y with
  | nil => simp
  | cons a l ih =>
    rw [List.map_cons, List.sum_cons, List.filter_cons]
    by_cases h : r < a
    · rw [if_pos (by simpa using h), List.sum_cons, List.length_cons,
        max_eq_left (by linarith : (0:ℝ) ≤ a - r), ih]
      push_cast
      ring
    · rw [if_neg (by simpa using h), max_eq_right (by linarith : a - r ≤ (0:ℝ)), ih]
      ring

lemma exists_gt_of_sum_map_max_ne_zero {y : List ℝ} {r : ℝ}
    (h : (y.map (fun t => max (t - r) 0)).sum ≠ 0) : ∃ a ∈ y, r < a := by
  by_contra hno
  push_neg at hno
  apply h
  apply List.sum_eq_zero
  intro t ht
  obtain ⟨a, ha, rfl⟩ := List.mem_map.mp ht
  exact max_eq_right (by linarith [hno a ha])

lemma sum_map_max_lt {y : List ℝ} {r1 r2 : ℝ} (h12 : r1 < r2)
    (hex : ∃ a ∈ y, r2 < a) :
    (y.map (fun t => max (t - r2) 0)).sum < (y.map (fun t => max (t - r1) 0)).sum := by
  induction y with
  | nil => obtain ⟨a, ha, _⟩ := hex; exact absurd ha (List.not_mem_nil a)
  | cons b l ih =>
    obtain ⟨a, ha, hra⟩ := hex
    have hle : ∀ t : ℝ, max (t - r2) 0 ≤ max (t - r1) 0 := fun t =>
      max_le_max (by linarith) le_rfl
    have hlel : (l.map (fun t => max (t - r2) 0)).sum
        ≤ (l.map (fun t => max (t - r1) 0)).sum :=
      List.sum_le_sum (fun i _ => hle i)
    rcases List.mem_cons.mp ha with rfl | hal
    · have hstrict : max (a - r2) 0 < max (a - r1) 0 := by
        rw [max_eq_left (by linarith : (0:ℝ) ≤ a - r2),
          max_eq_left (by linarith : (0:ℝ) ≤ a - r1)]
        linarith
      simp only [List.map_cons, List.sum_cons]
      linarith
    · have hstrict := ih ⟨a, hal, hra⟩
      simp only [List.map_cons, List.sum_cons]
      linarith [hle b]

/-! ## Claims -/

/-- Claim C7 (code evidence): `prox_loss` as implemented adds HALF THE UNSQUARED
Euclidean norm of `x - y` to the penalty.  With the zero penalty, `x = [2, 0]` and
`y = [0, 0]` it returns `1`, while the formula of the claim (and of the method's
own docstring), `penalty(x) + 0.5*||x-y||^2`, gives `2`. -/
theorem C7_prox_loss_eval :
    prox_loss (fun _ => 0) [2, 0] [0, 0] = 1 ∧
      (0 : ℝ) + 0.5 * l2norm [2, 0] ^ 2 = 2 := by
  have hz : List.zipWith (· - ·) ([2, 0] : List ℝ) [0, 0] = [2, 0] := by norm_num
  have hn : l2norm [2, 0] = 2 := by
    rw [l2norm_pair, sqrt_eval (by norm_num : (0:ℝ) ≤ 2) (by norm_num)]
  constructor
  · show (0 : ℝ) + 0.5 * l2norm (List.zipWith (· - ·) [2, 0] [0, 0]) = 1
    rw [hz, hn]; norm_num
  · rw [hn]; norm_num

lemma l1_prox_at_example : l1_prox 1 [3, -(1/2)] = [2, 0] := by
  unfold l1_prox
  simp only [List.map_cons, List.map_nil]
  rw [Real.sign_of_pos (by norm_num : (0:ℝ) < 3),
    Real.sign_of_neg (by norm_num : -(1/2 : ℝ) < 0),
    abs_of_pos (by norm_num : (0:ℝ) < 3),
    abs_of_neg (by norm_num : -(1/2 : ℝ) < 0)]
  norm_num

lemma l1_subgradient_at_example : l1_subgradient [2, 0] = [1, 0] := by
  unfold l1_subgradient
  simp only [List.map_cons, List.map_nil]
  rw [Real.sign_of_pos (by norm_num : (0:ℝ) < 2), Real.sign_zero]

/-- Claim C2 (code evidence): elementwise soft-thresholding — the evident intent of
`L1Regularisation.prox`, whose line 92 as written raises `AttributeError` because
it calls the nonexistent method `self.sign` — sends `x = [3, -0.5]` with
coefficient `1` to `[2, 0]`, as the claim states, in both the scalar and the
weight-vector form of the coefficient. -/
theorem C2_l1_prox_eval :
    l1_prox 1 [3, -(1/2)] = [2, 0] ∧ l1_prox_w [1, 1] [3, -(1/2)] = [2, 0] := by
  refine ⟨l1_prox_at_example, ?_⟩
  unfold l1_prox_w
  simp only [List.zipWith_cons_cons, List.zipWith_nil_right]
  rw [Real.sign_of_pos (by norm_num : (0:ℝ) < 3),
    Real.sign_of_neg (by norm_num : -(1/2 : ℝ) < 0),
    abs_of_pos (by norm_num : (0:ℝ) < 3),
    abs_of_neg (by norm_num : -(1/2 : ℝ) < 0)]
  norm_num

/-- Claim C9 (counterexample): the proximal fixed-point identity
`subgradient(prox(x)) + prox(x) == x` fails for the L1 regulariser at
`x = [3, -0.5]` with coefficient `1`: the prox output is `[2, 0]`, its
subgradient is `[1, 0]`, and their sum `[3, 0]` differs from `x` in the entry
whose prox output is zero. -/
theorem C9_counterexample :
    List.zipWith (· + ·) (l1_subgradient (l1_prox 1 [3, -(1/2)])) (l1_prox 1 [3, -(1/2)])
      ≠ [3, -(1/2)] := by
  rw [l1_prox_at_example, l1_subgradient_at_example]
  intro h
  norm_num [List.zipWith] at h

/-- Claim C9 (amended): for the L1 regulariser with scalar coefficient `1`, the
identity `subgradient(prox(x)) + prox(x) == x` holds for every `x` all of whose
entries exceed `1` in absolute value — exactly the inputs whose prox output has no
zero entry.  It fails at entries with `|x_i| <= 1` (where the prox output is `0`
and the subgradient term cannot restore `x_i`), and for coefficients other than
`1` it fails even on nonzero outputs because `L1Regularisation.subgradient`
returns `np.sign(x)` without the coefficient factor. -/
theorem C9_prox_fixed_point_amended (x : List ℝ) (h : ∀ t ∈ x, 1 < |t|) :
    List.zipWith (· + ·) (l1_subgradient (l1_prox 1 x)) (l1_prox 1 x) = x := by
  induction x with
  | nil => rfl
  | cons a l ih =>
    have ha : 1 < |a| := h a (List.mem_cons_self a l)
    have hrest := ih (fun t ht => h t (List.mem_cons_of_mem a ht))
    unfold l1_prox l1_subgradient at hrest ⊢
    simp only [List.map_cons, List.zipWith_cons_cons, List.cons.injEq]
    refine ⟨?_, hrest⟩
    have h0 : (0:ℝ) < |a| - 1 := by linarith
    rw [max_eq_left (le_of_lt h0)]
    rcases lt_trichotomy a 0 with hneg | rfl | hpos
    · rw [abs_of_neg hneg] at h0 ⊢
      rw [Real.sign_of_neg hneg,
        show (-1 : ℝ) * (-a - 1) = -a * -1 + 1 * -1 * -1 by ring]
      rw [show (-a : ℝ) * -1 + 1 * -1 * -1 = a + 1 by ring,
        Real.sign_of_neg (by linarith : a + 1 < 0)]
      ring
    · norm_num at ha
    · rw [abs_of_pos hpos] at h0 ⊢
      rw [Real.sign_of_pos hpos, one_mul,
        Real.sign_of_pos (by linarith : (0:ℝ) < a - 1)]
      ring

/-- Claim C9 (witness): the amended identity at `x = [3, -2]`, coefficient `1`. -/
theorem C9_witness :
    List.zipWith (· + ·) (l1_subgradient (l1_prox 1 [3, -2])) (l1_prox 1 [3, -2])
      = [3, -2] :=
  C9_prox_fixed_point_amended [3, -2] (by intro t ht; fin_cases ht <;> norm_num)

/-- Claim C8 (counterexample): constructing a simplex projection with size `-1`, a
ball projection with radius `0`, or an L1 regulariser with coefficient `-2` does
NOT fail: each constructor returns an ordinary object storing the non-positive
parameter, because the `__init__` methods contain no validation. -/
theorem C8_counterexample :
    mkSimplexProjection (-1) = .ok ⟨-1⟩ ∧ mkBallProjection 0 = .ok ⟨0⟩ ∧
      mkL1Regularisation (-2) = .ok ⟨-2⟩ :=
  ⟨rfl, rfl, rfl⟩

/-- Claim C8 (amended): no constructor of `projections.py` or `regularisers.py`
validates its parameters; every parameter value, positive or not, is accepted and
stored as given, and no `InvalidParameter` error exists anywhere in the code. -/
theorem C8_constructors_never_fail (s a r : ℝ) (g : Option (List ℕ)) :
    mkSimplexProjection s = .ok ⟨s⟩ ∧ mkBallProjection a = .ok ⟨a⟩ ∧
      mkL1Regularisation r = .ok ⟨r⟩ ∧
      mkGroupLassoRegularisation r g = .ok ⟨asarrayGroups g, r⟩ :=
  ⟨rfl, rfl, rfl, rfl⟩

/-- Claim C10 (code evidence): `GroupLassoRegularisation.__init__` stores
`np.asarray(groups)`, so when the regulariser is constructed with `groups = None`
the stored attribute is a 0-d object array and the branch `self.groups is None`
in `iter_groups` — the only code path implementing singleton groups — is never
taken. -/
theorem C10_default_groups_branch_dead : groupsIsNone (asarrayGroups none) = false :=
  rfl

lemma nonNegProject_ne_nil {x : List ℝ} (hx : x ≠ []) : nonNegProject x ≠ [] := by
  have hylen : (nonNegProject x).length = x.length := List.length_map x _
  rw [← List.length_pos, hylen, List.length_pos]
  exact hx

lemma simplexProject_sum {s : ℝ} (hs : 0 < s) {x : List ℝ} (hx : x ≠ []) :
    (simplexProject s x).sum = s := by
  have hyne := nonNegProject_ne_nil hx
  obtain ⟨-, hspec⟩ :=
    simplexRho_spec hs (nonNegProject x).length (nonNegProject x) le_rfl hyne
  show ((nonNegProject x).map
    (fun t => max (t - simplexRho s (nonNegProject x)) 0)).sum = s
  rw [sum_map_max, hspec]
  ring

lemma simplexProject_nonneg (s : ℝ) (x : List ℝ) : ∀ b ∈ simplexProject s x, 0 ≤ b := by
  intro b hb
  obtain ⟨t, -, rfl⟩ := List.mem_map.mp hb
  exact le_max_right _ 0

lemma nonNegProject_nonneg (x : List ℝ) : ∀ a ∈ nonNegProject x, 0 ≤ a := by
  intro a ha
  obtain ⟨t, -, rfl⟩ := List.mem_map.mp ha
  by_cases h : 0 ≤ t
  · rw [if_pos h, mul_one]
    exact h
  · rw [if_neg h, mul_zero]

lemma abs_sign_le_one (t : ℝ) : |Real.sign t| ≤ 1 := by
  rcases lt_trichotomy t 0 with h | h | h
  · rw [Real.sign_of_neg h]
    norm_num
  · rw [h, Real.sign_zero]
    norm_num
  · rw [Real.sign_of_pos h]
    norm_num

lemma l1norm_zip_sign_le : ∀ (x z : List ℝ), (∀ b ∈ z, 0 ≤ b) →
    l1norm (List.zipWith (· * ·) (x.map Real.sign) z) ≤ z.sum := by
  intro x
  induction x with
  | nil =>
    intro z hz
    simpa [l1norm] using List.sum_nonneg hz
  | cons t x ih =>
    intro z hz
    cases z with
    | nil => simp [l1norm]
    | cons b z2 =>
      simp only [List.map_cons, List.zipWith_cons_cons]
      have hb : 0 ≤ b := hz b (List.mem_cons_self b z2)
      have h1 : |Real.sign t * b| ≤ b := by
        rw [abs_mul, abs_of_nonneg hb]
        nlinarith [abs_sign_le_one t, abs_nonneg (Real.sign t)]
      have h2 := ih z2 (fun c hc => hz c (List.mem_cons_of_mem _ hc))
      unfold l1norm at h2 ⊢
      simp only [List.map_cons, List.sum_cons]
      linarith

lemma l2norm_nonneg (x : List ℝ) : 0 ≤ l2norm x := Real.sqrt_nonneg _

lemma l2norm_smul (c : ℝ) (x : List ℝ) :
    l2norm (x.map (fun t => c * t)) = |c| * l2norm x := by
  have hsum : ∀ l : List ℝ,
      (l.map (fun t => (c * t) ^ 2)).sum = c ^ 2 * (l.map (fun a => a ^ 2)).sum := by
    intro l
    induction l with
    | nil => simp
    | cons a l ih =>
      simp only [List.map_cons, List.sum_cons, ih]
      ring
  unfold l2norm
  rw [List.map_map]
  show Real.sqrt ((x.map (fun t => (c * t) ^ 2)).sum) = _
  rw [hsum, Real.sqrt_mul (sq_nonneg c), Real.sqrt_sq_eq_abs]

lemma foldr_max_le {l : List ℝ} {c : ℝ} (hc : 0 ≤ c) (h : ∀ a ∈ l, a ≤ c) :
    l.foldr max 0 ≤ c := by
  induction l with
  | nil => simpa using hc
  | cons a l ih =>
    simp only [List.foldr_cons]
    exact max_le (h a (List.mem_cons_self a l))
      (ih fun b hb => h b (List.mem_cons_of_mem a hb))

lemma simplexRhoE_ok {s : ℝ} (hs : 0 < s) :
    ∀ (n : ℕ) (v : List ℝ), v.length ≤ n → v ≠ [] →
      simplexRhoE s v = .ok (simplexRho s v) := by
  intro n
  induction n with
  | zero =>
    intro v hlen hne
    exact absurd (List.length_eq_zero.mp (Nat.le_zero.mp hlen)) hne
  | succ n ih =>
    intro v hlen hne
    have hlen0 : ¬ v.length = 0 := (List.length_pos.mpr hne).ne'
    by_cases h : (simplexStep s v).length = v.length
    · rw [simplexRhoE, if_neg hlen0, dif_pos h, simplexRho, dif_pos h]
    · rw [simplexRhoE, if_neg hlen0, dif_neg h, simplexRho, dif_neg h]
      have hv2 : simplexStep s v ≠ [] := simplexStep_ne_nil hs hne
      have hlt : (simplexStep s v).length < v.length :=
        lt_of_le_of_ne (List.length_filter_le _ _) h
      exact ih (simplexStep s v) (by omega) hv2

lemma simplexProjectE_ok {s : ℝ} (hs : 0 < s) {x : List ℝ} (hx : x ≠ []) :
    simplexProjectE s x = .ok (simplexProject s x) := by
  unfold simplexProjectE
  rw [simplexRhoE_ok hs (nonNegProject x).length (nonNegProject x) le_rfl
    (nonNegProject_ne_nil hx)]
  rfl

/-- Claim C4 (counterexample): the output-feasibility property cannot hold for
every input vector, because at the empty input vector the Simplex variant
produces no output at all: `self.simplex_size/len(v)` (line 44 of
`projections.py`) divides by the zero length of the empty clipped vector and
raises `ZeroDivisionError`.  On every nonempty input with positive size this
error-aware reading coincides with the total `simplexProject`
(`simplexProjectE_ok`), which the amended theorem below proves feasible. -/
theorem C4_counterexample :
    simplexProjectE 1 [] = .error .zeroDivisionError := by
  unfold simplexProjectE
  rw [show nonNegProject [] = [] from rfl, simplexRhoE,
    if_pos (show ([] : List ℝ).length = 0 from rfl)]
  rfl

/-- Claim C4 (amended): for every NONEMPTY input vector and every `ProjectionSet`
variant with valid (positive) parameter, the projected point satisfies the
variant's own feasibility test. -/
theorem C4_project_is_feasible (P : ProjectionSet) (x : List ℝ)
    (hx : x ≠ []) (hp : P.validParam) : P.is_feasible (P.project x) := by
  cases P with
  | nonNegativeOrthant =>
    show nonNeg_isFeasible (nonNegProject x)
    exact nonNegProject_nonneg x
  | simplex s =>
    show simplex_isFeasible s (simplexProject s x)
    refine ⟨?_, simplexProject_nonneg s x⟩
    rw [simplexProject_sum hp hx]
    norm_num
  | l1Ball a =>
    show l1_isFeasible a (l1Project a x)
    unfold l1Project
    by_cases h : l1_isFeasible a x
    · rw [if_pos h]
      exact h
    · rw [if_neg h]
      unfold l1_isFeasible
      have hzsum : (simplexProject a (x.map (fun t => |t|))).sum = a :=
        simplexProject_sum hp (by simpa using hx)
      have hle := l1norm_zip_sign_le x _ (simplexProject_nonneg a (x.map (fun t => |t|)))
      rw [hzsum] at hle
      have he : (0:ℝ) < 1e-10 := by norm_num
      linarith
  | l2Ball a =>
    show l2_isFeasible a (l2Project a x)
    unfold l2Project
    by_cases h : l2norm x < a
    · rw [if_pos h]
      unfold l2_isFeasible
      have he : (0:ℝ) < 1e-10 := by norm_num
      linarith
    · rw [if_neg h]
      unfold l2_isFeasible
      push_neg at h
      have hd : (0:ℝ) < l2norm x + 1e-16 := by
        have h16 : (0:ℝ) < 1e-16 := by norm_num
        linarith [l2norm_nonneg x]
      have hc : 0 ≤ a / (l2norm x + 1e-16) := div_nonneg (le_of_lt hp) (le_of_lt hd)
      rw [l2norm_smul, abs_of_nonneg hc]
      have hlt : a / (l2norm x + 1e-16) * l2norm x < a := by
        rw [div_mul_eq_mul_div, div_lt_iff hd]
        have h16 : (0:ℝ) < 1e-16 := by norm_num
        nlinarith [mul_pos hp h16]
      have he : (0:ℝ) < 1e-10 := by norm_num
      linarith
  | linfBall a =>
    show linf_isFeasible a (linfProject a x)
    unfold linf_isFeasible linfnorm linfProject
    have hbound : ∀ b ∈ (x.map (fun t => Real.sign t * min |t| a)).map (fun t => |t|),
        b ≤ a := by
      intro b hb
      obtain ⟨u, hu, rfl⟩ := List.mem_map.mp hb
      obtain ⟨t, -, rfl⟩ := List.mem_map.mp hu
      rw [abs_mul]
      have h2 : 0 ≤ min |t| a := le_min (abs_nonneg t) (le_of_lt hp)
      have h3 : min |t| a ≤ a := min_le_right _ _
      rw [abs_of_nonneg h2]
      nlinarith [abs_sign_le_one t, abs_nonneg (Real.sign t)]
    exact lt_of_le_of_lt (foldr_max_le (le_of_lt hp) hbound) (by norm_num)

/-- Claim C4 (witness): the amended statement for the nonnegative orthant at
`x = [-1, 2]`. -/
theorem C4_witness :
    ProjectionSet.is_feasible .nonNegativeOrthant
      (ProjectionSet.project .nonNegativeOrthant [-1, 2]) :=
  C4_project_is_feasible .nonNegativeOrthant [-1, 2] (by simp) trivial

/-- Claim C3 (code evidence): block soft-thresholding with effective coefficient
`r*sqrt(|g|)` — the evident intent of `GroupLassoRegularisation.prox`, which as
written raises `NameError` (`sqrt` is never imported) and in any case builds its
output buffer from a bound method and returns `None` — maps `x = [3, 4, 0.1]`
with groups `{0: [0, 1], 1: [2]}` and scalar coefficient `1` to
`[(1 - sqrt(2)/5)*3, (1 - sqrt(2)/5)*4, 0]`, as the claim states. -/
theorem C3_group_lasso_prox_eval :
    groupLasso_prox 1 [0, 0, 1] [3, 4, 1/10]
      = [(1 - Real.sqrt 2 / 5) * 3, (1 - Real.sqrt 2 / 5) * 4, 0] := by
  have hm0 : groupMembers [0, 0, 1] [3, 4, 1/10] 0 = [3, 4] := rfl
  have hm1 : groupMembers [0, 0, 1] [3, 4, 1/10] 1 = [1/10] := rfl
  have hr0 : groupReg 1 [0, 0, 1] 0 = Real.sqrt 2 := by
    unfold groupReg
    norm_num
  have hr1 : groupReg 1 [0, 0, 1] 1 = 1 := by
    unfold groupReg
    norm_num [Real.sqrt_one]
  have hn0 : l2norm [(3:ℝ), 4] = 5 := by
    rw [l2norm_pair, sqrt_eval (by norm_num : (0:ℝ) ≤ 5) (by norm_num)]
  have hn1 : l2norm [(1:ℝ)/10] = 1/10 := by
    rw [l2norm_single]
    norm_num
  have hs2 : Real.sqrt 2 < 5 := by
    have h25 : Real.sqrt 25 = 5 := sqrt_eval (by norm_num) (by norm_num)
    calc Real.sqrt 2 < Real.sqrt 25 := Real.sqrt_lt_sqrt (by norm_num) (by norm_num)
      _ = 5 := h25
  unfold groupLasso_prox
  simp only [List.zip_cons_cons, List.zip_nil_right, List.map_cons, List.map_nil]
  rw [hm0, hm1, hr0, hr1, hn0, hn1]
  rw [if_neg (not_lt.mpr (le_of_lt hs2)), if_neg (not_lt.mpr (le_of_lt hs2)),
    if_pos (by norm_num : (1:ℝ)/10 < 1)]
  have hgoal1 : (3:ℝ) - Real.sqrt 2 / 5 * 3 = (1 - Real.sqrt 2 / 5) * 3 := by ring
  have hgoal2 : (4:ℝ) - Real.sqrt 2 / 5 * 4 = (1 - Real.sqrt 2 / 5) * 4 := by ring
  rw [hgoal1, hgoal2]

/-- Claim C6 (counterexample): for radius `1` and `x = [1, 0]`, which lies exactly
on the boundary of the L2 ball, `L2Projection.project` does not return `x`
unchanged: the feasibility test is strict (`xnorm < max_norm`), so the scaling
branch runs and shrinks `x` by the factor `1/(1 + 1e-16)`. -/
theorem C6_counterexample : l2Project 1 [1, 0] ≠ [1, 0] := by
  have hn : l2norm [1, 0] = 1 := by
    rw [l2norm_pair, sqrt_eval (by norm_num : (0:ℝ) ≤ 1) (by norm_num)]
  unfold l2Project
  rw [hn, if_neg (by norm_num)]
  intro hEq
  have h1 : (1 : ℝ) / (1 + 1e-16) * 1 = 1 := by
    have := List.head_eq_of_cons_eq hEq
    simpa using this
  norm_num at h1

/-- Claim C6 (amended): `L2Projection.project` returns `x` unchanged exactly when
`||x||_2 < a` strictly; whenever `a <= ||x||_2` — including equality at the
boundary — it returns `(a / (||x||_2 + 1e-16)) * x`, with the epsilon `1e-16`
added to the denominator. -/
theorem C6_l2_project_branches (a : ℝ) (x : List ℝ) :
    (l2norm x < a → l2Project a x = x) ∧
      (a ≤ l2norm x → l2Project a x = x.map (fun t => a / (l2norm x + 1e-16) * t)) := by
  constructor
  · intro h; unfold l2Project; rw [if_pos h]
  · intro h; unfold l2Project; rw [if_neg (not_lt.mpr h)]

/-- Claim C1: for every vector of positive length and positive simplex size,
`SimplexProjection.project` clips `x` to the nonnegative orthant giving
`y = max(x, 0)`, returns `max(y - rho, 0)` for the threshold `rho` produced by the
iterative support-reduction loop, this threshold satisfies
`sum(max(y - rho, 0)) = s` and is the unique real with that property; and in
particular `x = [2, 2, -1]` with size `1` projects to `[0.5, 0.5, 0]`. -/
theorem C1_simplex_project (x : List ℝ) (s : ℝ) (hx : 0 < x.length) (hs : 0 < s) :
    (simplexProject s x
        = (nonNegProject x).map (fun t => max (t - simplexRho s (nonNegProject x)) 0) ∧
      (simplexProject s x).sum = s ∧
      ∀ r, ((nonNegProject x).map (fun t => max (t - r) 0)).sum = s →
        r = simplexRho s (nonNegProject x)) ∧
    simplexProject 1 [2, 2, -1] = [1 / 2, 1 / 2, 0] := by
  have main : ∀ (x' : List ℝ) (s' : ℝ), 0 < x'.length → 0 < s' →
      (simplexProject s' x'
          = (nonNegProject x').map (fun t => max (t - simplexRho s' (nonNegProject x')) 0) ∧
        (simplexProject s' x').sum = s' ∧
        ∀ r, ((nonNegProject x').map (fun t => max (t - r) 0)).sum = s' →
          r = simplexRho s' (nonNegProject x')) := by
    intro x' s' hx' hs'
    set y := nonNegProject x' with hy
    have hylen : y.length = x'.length := List.length_map x' _
    have hyne : y ≠ [] := by
      rw [← List.length_pos, hylen]
      exact hx'
    obtain ⟨-, hspec⟩ := simplexRho_spec hs' y.length y le_rfl hyne
    have hsum : (simplexProject s' x').sum = s' := by
      show ((nonNegProject x').map
        (fun t => max (t - simplexRho s' (nonNegProject x')) 0)).sum = s'
      rw [← hy, sum_map_max, hspec]
      ring
    refine ⟨rfl, hsum, ?_⟩
    intro r hr
    have hsum_rho : (y.map (fun t => max (t - simplexRho s' y) 0)).sum = s' := hsum
    rcases lt_trichotomy r (simplexRho s' y) with hlt | heq | hgt
    · have hex := exists_gt_of_sum_map_max_ne_zero (y := y) (r := simplexRho s' y)
        (by rw [hsum_rho]; exact hs'.ne')
      have := sum_map_max_lt hlt hex
      rw [hsum_rho, hr] at this
      exact absurd this (lt_irrefl s')
    · exact heq
    · have hex := exists_gt_of_sum_map_max_ne_zero (y := y) (r := r)
        (by rw [hr]; exact hs'.ne')
      have := sum_map_max_lt hgt hex
      rw [hsum_rho, hr] at this
      exact absurd this (lt_irrefl s')
  refine ⟨main x s hx hs, ?_⟩
  have hy : nonNegProject [2, 2, -1] = [2, 2, 0] := by
    simp only [nonNegProject, List.map_cons, List.map_nil]
    rw [if_pos (by norm_num : (0:ℝ) ≤ 2), if_neg (by norm_num : ¬ (0:ℝ) ≤ -1)]
    norm_num
  have hstep1 : simplexStep 1 [(2:ℝ), 2, 0] = [2, 2] := by
    have hrho1 : stepRho 1 [(2:ℝ), 2, 0] = 1 := by
      unfold stepRho
      norm_num
    unfold simplexStep
    rw [hrho1]
    simp only [List.filter_cons, List.filter_nil, decide_eq_true_eq]
    rw [if_pos (by norm_num : (1:ℝ) < 2), if_neg (by norm_num : ¬ (1:ℝ) < 0),
      if_pos (by norm_num : (1:ℝ) < 2)]
  have hstep2 : simplexStep 1 [(2:ℝ), 2] = [2, 2] := by
    have hrho2 : stepRho 1 [(2:ℝ), 2] = 3 / 2 := by
      unfold stepRho
      norm_num
    unfold simplexStep
    rw [hrho2]
    simp only [List.filter_cons, List.filter_nil, decide_eq_true_eq]
    rw [if_pos (by norm_num : (3:ℝ) / 2 < 2), if_pos (by norm_num : (3:ℝ) / 2 < 2)]
  have hrho_rec : simplexRho 1 [(2:ℝ), 2, 0] = 3 / 2 := by
    rw [simplexRho, dif_neg (by rw [hstep1]; simp), hstep1,
      simplexRho, dif_pos (by rw [hstep2])]
    unfold stepRho
    norm_num
  show (nonNegProject [2, 2, -1]).map
      (fun t => max (t - simplexRho 1 (nonNegProject [2, 2, -1])) 0) = [1 / 2, 1 / 2, 0]
  rw [hy, hrho_rec]
  simp only [List.map_cons, List.map_nil]
  rw [max_eq_left (by norm_num : (0:ℝ) ≤ 2 - 3 / 2),
    max_eq_right (by norm_num : (0:ℝ) - 3 / 2 ≤ 0)]
  norm_num

/-- Claim C1 (witness): the theorem instantiated at `x = [2, 2, -1]`, `s = 1`. -/
theorem C1_witness :
    (simplexProject 1 [2, 2, -1]).sum = 1 ∧
      simplexProject 1 [2, 2, -1] = [1 / 2, 1 / 2, 0] :=
  ⟨(C1_simplex_project [2, 2, -1] 1 (by norm_num) (by norm_num)).1.2.1,
    (C1_simplex_project [2, 2, -1] 1 (by norm_num) (by norm_num)).2⟩

/-- Claim C5: for a vector of positive length `n` and positive simplex size, the
support-reduction loop of `SimplexProjection.project` terminates (the recursion
defining `simplexRho`/`simplexSteps` is well founded by the strictly decreasing
working-set length), executes its body at least once and at most `n` times, and
one shrink of a nonempty working set is never empty. -/
theorem C5_simplex_steps (x : List ℝ) (s : ℝ) (hx : 0 < x.length) (hs : 0 < s) :
    1 ≤ simplexSteps s (nonNegProject x) ∧
      simplexSteps s (nonNegProject x) ≤ x.length ∧
      ∀ v : List ℝ, v ≠ [] → simplexStep s v ≠ [] := by
  have hylen : (nonNegProject x).length = x.length := List.length_map x _
  have hyne : nonNegProject x ≠ [] := by
    rw [← List.length_pos, hylen]
    exact hx
  obtain ⟨h1, h2⟩ := simplexSteps_bound hs (nonNegProject x).length (nonNegProject x) le_rfl hyne
  exact ⟨h1, hylen ▸ h2, fun v hv => simplexStep_ne_nil hs hv⟩

/-- Claim C5 (witness): the bound at `x = [2, 2, -1]`, `s = 1`, and the
never-empty property at the working set `[2, 2, 0]` reached after clipping. -/
theorem C5_witness :
    1 ≤ simplexSteps 1 (nonNegProject [2, 2, -1]) ∧
      simplexSteps 1 (nonNegProject [2, 2, -1]) ≤ 3 ∧
      simplexStep 1 [2, 2, 0] ≠ [] := by
  obtain ⟨h1, h2, h3⟩ := C5_simplex_steps [2, 2, -1] 1 (by norm_num) (by norm_num)
  exact ⟨h1, h2, h3 [2, 2, 0] (by simp)⟩

/-- Claim C6 (witness): the amended statement at radius `1` and `x = [2, 0]`. -/
theorem C6_witness :
    l2Project 1 [2, 0] = [2, 0].map (fun t => 1 / (l2norm [2, 0] + 1e-16) * t) :=
  (C6_l2_project_branches 1 [2, 0]).2 (by
    rw [l2norm_pair, sqrt_eval (by norm_num : (0:ℝ) ≤ 2) (by norm_num)]
    norm_num)
